import Mathlib

/-!
Verification of the request-canonicalization, signing and encryption core of
the `alipay-sdk-deno` repository (files `src/utils.ts`, `src/alipay.ts`,
`src/cert_utils.ts`), as a shallow embedding in Lean 4.

Modelling conventions:
* JavaScript strings are Lean `String`s (lists of Unicode scalar values).
  String sorting uses codepoint order, which coincides with UTF-8 byte order
  and, on the ASCII keys of this protocol, with JavaScript's UTF-16 code-unit
  order.
* JavaScript objects are association lists with distinct keys; dynamic `any`
  values are the inductive `JSValue`.
* External collaborators (Web Crypto `crypto.subtle`, `@std/encoding` base64,
  `TextEncoder`/`TextDecoder`, `JSON`, `URLSearchParams`) are parameters of
  the embedded functions; their documented contracts appear as hypotheses of
  the theorems that need them.  Code that can throw is modelled in
  `Except JsError`.
* Multiple reads of the wall clock inside one synchronous call are modelled
  as a single instant `now` (milliseconds since epoch, as `Int`).
-/

/-- A thrown JavaScript error (only its message is relevant). -/
structure JsError where
  msg : String
deriving DecidableEq, Repr

mutual

/-- Dynamic JavaScript values as they occur in business payloads: scalars,
arrays, and plain objects (sequences of key/value fields, kept in insertion
order like JavaScript object keys).  Numbers are modelled as integers; none
of the verified claims depends on non-integral numerics.  Arrays and objects
are mutually inductive with `JSValue` so that all recursion over them is
structural. -/
inductive JSValue where
  | null
  | undefined
  | bool (b : Bool)
  | num (n : Int)
  | str (s : String)
  | arr (elems : JSArray)
  | obj (fields : JSObject)

/-- A JavaScript array of dynamic values. -/
inductive JSArray where
  | nil
  | cons (head : JSValue) (tail : JSArray)

/-- A plain JavaScript object: its fields in key insertion order. -/
inductive JSObject where
  | nil
  | cons (key : String) (value : JSValue) (tail : JSObject)

end

/-- The fields of a plain object as an association list. -/
def JSObject.entries : JSObject → List (String × JSValue)
  | .nil => []
  | .cons k v tl => (k, v) :: tl.entries

/-- Lookup in a JavaScript string-valued record: a missing key yields
`undefined`, which for the truthiness tests of the modelled code behaves
exactly like the empty string, so both are collapsed to `""`. -/
def jsGet (params : List (String × String)) (key : String) : String :=
  (((params.find? (fun p => p.1 == key))).map Prod.snd).getD ""

/-- JavaScript code-unit comparison of strings (`a <= b` for the default
`Array.prototype.sort` comparator), on the underlying character lists. -/
def charListLe : List Char → List Char → Bool
  | [], _ => true
  | _ :: _, [] => false
  | a :: as, b :: bs =>
    if a.toNat < b.toNat then true
    else if b.toNat < a.toNat then false
    else charListLe as bs

/-- The string order used by `Object.keys(params).sort()`. -/
def jsStrLe (a b : String) : Prop := charListLe a.data b.data = true

instance : DecidableRel jsStrLe := fun a b => by
  unfold jsStrLe; infer_instance

/-- `Array.prototype.join(sep)`: the elements joined by the separator.
`[].join(sep)` is the empty string. -/
def jsJoin (sep : String) : List String → String
  | [] => ""
  | [x] => x
  | x :: y :: xs => x ++ sep ++ jsJoin sep (y :: xs)

/-- `AlipaySdk.buildSignContent` (src/alipay.ts): sort the keys, drop `sign`
and keys with falsy (empty) values, render `key=value`, join with `&`.
JavaScript's `sort()` is modelled by insertion sort over `jsStrLe`; on the
distinct keys of an object both produce the unique sorted arrangement. -/
def buildSignContent (params : List (String × String)) : String :=
  let sortedKeys := List.insertionSort jsStrLe (params.map Prod.fst)
  let kept := sortedKeys.filter (fun key => jsGet params key != "" && key != "sign")
  jsJoin "&" (kept.map (fun key => key ++ "=" ++ jsGet params key))

/-- The V2 canonical signable string as the specification words it: exclude
the `sign` key, exclude entries with falsy values, sort the remaining
entries by key in ascending lexicographic order, join as `key=value` pairs
with `&`. -/
def signableSpecV2 (params : List (String × String)) : String :=
  let kept := params.filter (fun p => p.1 != "sign" && p.2 != "")
  let sorted := List.insertionSort (fun p q : String × String => jsStrLe p.1 q.1) kept
  jsJoin "&" (sorted.map (fun p => p.1 ++ "=" ++ p.2))

/-- The test `value !== null && value !== undefined && value !== ''` from
`removeEmptyValues`: strict inequality against `''` is only satisfied by the
empty string itself, so `0` and `false` pass the test. -/
def keepValue : JSValue → Bool
  | .null => false
  | .undefined => false
  | .str s => s != ""
  | _ => true

/-- `removeEmptyValues` (src/utils.ts): iterate over the entries of a flat
mapping and copy into the result exactly those whose value passes
`keepValue`, preserving order and values. -/
def removeEmptyValues : JSObject → JSObject
  | .nil => .nil
  | .cons k v tl =>
    if keepValue v then .cons k v (removeEmptyValues tl)
    else removeEmptyValues tl

/-- JavaScript's `\w` character class: ASCII letters, digits, underscore. -/
def isWordChar (c : Char) : Bool :=
  c.isUpper || c.isLower || c.isDigit || c == '_'

/-- Helper for the regex `/(\w+)([A-Z])/g`: if the list contains an uppercase
letter, insert `'_'` immediately before the **last** one (the greedy `\w+`
backtracks as little as possible, so the captured `[A-Z]` is the last
uppercase letter of the current word run). -/
def insLastUp : List Char → Option (List Char)
  | [] => none
  | c :: cs =>
    match insLastUp cs with
    | some cs' => some (c :: cs')
    | none => if c.isUpper then some ('_' :: c :: cs) else none

/-- One maximal `\w+` run under `/(\w+)([A-Z])/g`: the regex matches at the
start of the run with the last uppercase letter (at index ≥ 1) as `$2`, and
the remainder of the run contains no further uppercase letter, hence no
further match. -/
def replace1run (r : List Char) : List Char :=
  match r with
  | [] => []
  | c :: cs =>
    match insLastUp cs with
    | some cs' => c :: cs'
    | none => c :: cs

/-- Global replace `str.replace(/(\w+)([A-Z])/g, '$1_$2')`, processing the
string as alternating maximal word runs and non-word characters (a match
never spans a non-word character).  `fuel` is a termination device, always
called with the length of the string. -/
def replace1Go : Nat → List Char → List Char
  | 0, s => s
  | _ + 1, [] => []
  | fuel + 1, c :: cs =>
    if isWordChar c then
      replace1run (c :: cs.takeWhile isWordChar) ++
        replace1Go fuel (cs.dropWhile isWordChar)
    else
      c :: replace1Go fuel cs

/-- Global replace `str.replace(/([a-z\d])([A-Z])/g, '$1_$2')`: a match is a
lowercase letter or digit immediately followed by an uppercase letter, and
scanning resumes after the match. -/
def replace2 : List Char → List Char
  | [] => []
  | [c] => [c]
  | a :: b :: rest =>
    if (a.isLower || a.isDigit) && b.isUpper then
      a :: '_' :: b :: replace2 rest
    else
      a :: replace2 (b :: rest)

/-- `decamelize` (src/utils.ts) with the default `'_'` separator: the two
global regex replacements followed by `toLowerCase()` (ASCII inputs). -/
def decamelize (str : String) : String :=
  String.mk (((replace1Go str.data.length str.data) |> replace2).map Char.toLower)

/-- Global replace `str.replace(/_([a-z])/g, (_, letter) => letter.toUpperCase())`
implementing `camelize` (src/utils.ts): each underscore followed by a
lowercase letter is replaced by that letter uppercased. -/
def camelizeChars : List Char → List Char
  | [] => []
  | [c] => [c]
  | a :: b :: rest =>
    if a == '_' && b.isLower then
      b.toUpper :: camelizeChars rest
    else
      a :: camelizeChars (b :: rest)

/-- `camelize` (src/utils.ts). -/
def camelize (str : String) : String :=
  String.mk (camelizeChars str.data)

mutual

/-- `snakeCaseKeys` (src/utils.ts): recursively rename every key of every
plain object from camelCase to snake_case, mapping over arrays and leaving
scalars (and `null`) untouched. -/
def snakeCaseKeys : JSValue → JSValue
  | .arr l => .arr (snakeCaseArr l)
  | .obj fs => .obj (snakeCaseObj fs)
  | v => v

/-- `snakeCaseKeys` mapped over the elements of an array. -/
def snakeCaseArr : JSArray → JSArray
  | .nil => .nil
  | .cons x xs => .cons (snakeCaseKeys x) (snakeCaseArr xs)

/-- `snakeCaseKeys` over the fields of an object: each key is decamelized and
each value converted recursively. -/
def snakeCaseObj : JSObject → JSObject
  | .nil => .nil
  | .cons k v tl => .cons (decamelize k) (snakeCaseKeys v) (snakeCaseObj tl)

end

mutual

/-- `camelCaseKeys` (src/utils.ts): the reverse key conversion, same shape as
`snakeCaseKeys` with `camelize` in place of `decamelize`. -/
def camelCaseKeys : JSValue → JSValue
  | .arr l => .arr (camelCaseArr l)
  | .obj fs => .obj (camelCaseObj fs)
  | v => v

/-- `camelCaseKeys` mapped over the elements of an array. -/
def camelCaseArr : JSArray → JSArray
  | .nil => .nil
  | .cons x xs => .cons (camelCaseKeys x) (camelCaseArr xs)

/-- `camelCaseKeys` over the fields of an object. -/
def camelCaseObj : JSObject → JSObject
  | .nil => .nil
  | .cons k v tl => .cons (camelize k) (camelCaseKeys v) (camelCaseObj tl)

end

/-- No two adjacent uppercase letters. -/
def noAdjacentUpper : List Char → Bool
  | [] => true
  | [_] => true
  | a :: b :: rest => !(a.isUpper && b.isUpper) && noAdjacentUpper (b :: rest)

/-- A camelCase identifier-shaped string: nonempty, made of ASCII letters and
digits only (no underscores at all, hence none leading or trailing), starting
with a lowercase letter, and without adjacent uppercase letters. -/
def camelShaped (s : List Char) : Bool :=
  match s with
  | [] => false
  | c :: _ =>
    c.isLower && s.all (fun d => d.isLower || d.isUpper || d.isDigit) &&
      noAdjacentUpper s

mutual

/-- All keys of every object inside the payload are camelCase-shaped
(recursively, through arrays and nested objects). -/
def allKeysCamel : JSValue → Bool
  | .arr l => allKeysCamelArr l
  | .obj fs => allKeysCamelObj fs
  | _ => true

/-- `allKeysCamel` over every element of an array. -/
def allKeysCamelArr : JSArray → Bool
  | .nil => true
  | .cons x xs => allKeysCamel x && allKeysCamelArr xs

/-- `allKeysCamel` over every field of an object: the key itself is
camelCase-shaped and the value satisfies the predicate recursively. -/
def allKeysCamelObj : JSObject → Bool
  | .nil => true
  | .cons k v tl => camelShaped k.data && allKeysCamel v && allKeysCamelObj tl

end

/-- An all-lowercase key: nonempty, lowercase ASCII letters and digits only. -/
def allLowerKey (s : String) : Bool :=
  s.data ≠ [] && s.data.all (fun c => c.isLower || c.isDigit)

/-- `String.prototype.toUpperCase()` on ASCII content. -/
def jsToUpperCase (s : String) : String :=
  String.mk (s.data.map Char.toUpper)

/-- Splitting a character list at every newline; the result always has one
more part than the string has newlines (so it is never empty). -/
def splitNl : List Char → List (List Char)
  | [] => [[]]
  | c :: cs =>
    if c = '\n' then [] :: splitNl cs
    else
      match splitNl cs with
      | [] => [[c]]
      | p :: ps => (c :: p) :: ps

/-- The newline-separated fields of a string. -/
def splitNlStr (s : String) : List String :=
  (splitNl s.data).map String.mk

/-- The string contains no newline character. -/
def noNl (s : String) : Prop := '\n' ∉ s.data

instance : DecidablePred noNl := fun s => by
  unfold noNl; infer_instance

/-- The external cryptographic primitives used by `verify` (src/utils.ts):
Web Crypto public-key import and signature check, `@std/encoding` base64
decoding, and `TextEncoder` (total).  `Key` is the abstract `CryptoKey`
type; byte buffers are lists of byte values.  Each fallible primitive is a
function into `Except JsError`. -/
structure CryptoEnv (Key : Type) where
  importPublicKey : String → String → Except JsError Key
  decodeBase64 : String → Except JsError (List Nat)
  subtleVerify : Key → List Nat → List Nat → Except JsError Bool
  textEncode : String → List Nat

/-- The body of the `try` block of `verify` (src/utils.ts): import the
public key, decode the base64 signature, and check the signature over the
UTF-8 encoded data.  Any of the three steps may throw. -/
def verifyAttempt {Key : Type} (env : CryptoEnv Key)
    (data signature publicKey signType : String) : Except JsError Bool := do
  let cryptoKey ← env.importPublicKey publicKey signType
  let signatureBuffer ← env.decodeBase64 signature
  env.subtleVerify cryptoKey signatureBuffer (env.textEncode data)

/-- `verify` (src/utils.ts): the attempt wrapped in `try/catch` — every
thrown error is caught and turned into the boolean `false`, so the function
is total into `Bool`. -/
def verify {Key : Type} (env : CryptoEnv Key)
    (data signature publicKey signType : String) : Bool :=
  match verifyAttempt env data signature publicKey signType with
  | .ok b => b
  | .error _ => false

/-- The canonical string signed by `signatureV3` (src/utils.ts): the six
fields joined by `'\n'`.  `searchToString` is the external
`URLSearchParams.prototype.toString` serializer; `requestBody || ''` and
`appAuthToken || ''` are the identity on strings once a missing token is
taken as `none`. -/
def stringToSignV3 (searchToString : List (String × String) → String)
    (method pathname : String) (params : List (String × String))
    (requestBody : String) (appAuthToken : Option String)
    (timestamp : Nat) : String :=
  jsJoin "\n"
    [jsToUpperCase method, pathname, searchToString params, requestBody,
      appAuthToken.getD "", toString timestamp]

/-- `signatureV3` (src/utils.ts): sign the canonical string with the
configured private key.  `signer` is the external `sign` primitive
(`importPrivateKey` + `crypto.subtle.sign`, taking data, private key, sign
type and key type); `appId` is accepted but unused, exactly as in the
source. -/
def signatureV3 (searchToString : List (String × String) → String)
    (signer : String → String → String → String → Except JsError String)
    (method pathname : String) (params : List (String × String))
    (requestBody : String) (appAuthToken : Option String) (timestamp : Nat)
    (appId privateKey signType keyType : String) : Except JsError String :=
  signer (stringToSignV3 searchToString method pathname params requestBody appAuthToken timestamp)
    privateKey signType keyType

/-- The string verified by `verifySignatureV3` (src/utils.ts): the
three-field join `{timestamp}\n{nonce}\n{body}`. -/
def stringToVerifyV3 (timestamp nonce requestBody : String) : String :=
  jsJoin "\n" [timestamp, nonce, requestBody]

/-- `verifySignatureV3` (src/utils.ts): verify the three-field string with
the caught-exception `verify`. -/
def verifySignatureV3 {Key : Type} (env : CryptoEnv Key)
    (timestamp nonce requestBody signature publicKey signType : String) : Bool :=
  verify env (stringToVerifyV3 timestamp nonce requestBody) signature publicKey signType

/-- JavaScript's `\s` character class restricted to its ASCII members (the
PEM/base64 material this code strips is ASCII). -/
def jsIsSpace (c : Char) : Bool :=
  c == ' ' || c == '\t' || c == '\n' || c == '\r' || c == '\x0b' || c == '\x0c'

/-- Global replacement of a fixed nonempty pattern by the empty string
(`str.replace(/pattern/g, '')` for a literal pattern): leftmost,
non-overlapping.  `fuel` is a termination device, always called with the
length of the subject. -/
def removeAllGo (pat : List Char) : Nat → List Char → List Char
  | 0, s => s
  | _ + 1, [] => []
  | fuel + 1, c :: cs =>
    if pat ≠ [] ∧ pat.isPrefixOf (c :: cs) then
      removeAllGo pat fuel ((c :: cs).drop pat.length)
    else
      c :: removeAllGo pat fuel cs

/-- Global removal of a literal substring from a string. -/
def removeAllSub (pat s : String) : String :=
  String.mk (removeAllGo pat.data s.data.length s.data)

/-- The certificate cleaning shared by `CertUtils.extractPublicKeyFromCert`
and `CertUtils.parseCertificate` (src/cert_utils.ts): drop the PEM BEGIN/END
markers, then delete all whitespace (`replace(/\s+/g, '')`). -/
def cleanCertContent (certContent : String) : String :=
  let s1 := removeAllSub "-----BEGIN CERTIFICATE-----" certContent
  let s2 := removeAllSub "-----END CERTIFICATE-----" s1
  String.mk (s2.data.filter (fun c => !jsIsSpace c))

/-- `CertUtils.extractPublicKeyFromCert` (src/cert_utils.ts): returns the
cleaned base64 body of the certificate as the key material (the simplified
form does no ASN.1 decomposition; its body cannot throw). -/
def extractPublicKeyFromCert (certContent : String) : String :=
  cleanCertContent certContent

/-- The configuration fields of `AlipaySdk` that the verification entry
points consult.  After the constructor's defaulting, all of them are plain
strings with `''` standing for "not configured" (the remaining configuration
fields play no role in the modelled operations). -/
structure AlipayConfig where
  appId : String
  privateKey : String
  signType : String
  alipayPublicKey : String
  alipayPublicCertContent : String

/-- `AlipaySdk.checkNotifySign` (src/alipay.ts): missing or empty `sign`
returns `false` at once; otherwise the `sign`/`sign_type` fields are removed,
the V2 signable string is rebuilt, the verification key is taken from the
gateway public certificate when one is configured and from the raw public
key otherwise, a missing key throws the configuration error, and the result
is the boolean outcome of `verify`. -/
def checkNotifySign {Key : Type} (env : CryptoEnv Key) (cfg : AlipayConfig)
    (params : List (String × String)) : Except JsError Bool :=
  let sign := jsGet params "sign"
  let signType := if jsGet params "sign_type" != "" then jsGet params "sign_type" else cfg.signType
  if sign == "" then .ok false
  else
    let signParams := params.filter (fun p => p.1 != "sign" && p.1 != "sign_type")
    let signContent := buildSignContent signParams
    let publicKey :=
      if cfg.alipayPublicCertContent != "" then extractPublicKeyFromCert cfg.alipayPublicCertContent
      else cfg.alipayPublicKey
    if publicKey == "" then .error ⟨"支付宝公钥未配置"⟩
    else .ok (verify env signContent sign publicKey signType)

/-- `AlipaySdk.checkNotifySignV3` (src/alipay.ts): same key selection and
configuration error as `checkNotifySign`, then `verifySignatureV3` over the
three-field string. -/
def checkNotifySignV3 {Key : Type} (env : CryptoEnv Key) (cfg : AlipayConfig)
    (timestamp nonce requestBody signature : String) : Except JsError Bool :=
  let publicKey :=
    if cfg.alipayPublicCertContent != "" then extractPublicKeyFromCert cfg.alipayPublicCertContent
    else cfg.alipayPublicKey
  if publicKey == "" then .error ⟨"支付宝公钥未配置"⟩
  else .ok (verifySignatureV3 env timestamp nonce requestBody signature publicKey cfg.signType)

/-- The external primitives used by the AES payload cipher (src/utils.ts):
base64 codec, raw AES key import, Web Crypto AES-CBC encrypt/decrypt (which
take the IV and do the whole CBC+PKCS#7 work internally), UTF-8 text codec,
and the JSON runtime functions. -/
structure AesEnv (Key : Type) where
  decodeBase64 : String → Except JsError (List Nat)
  encodeBase64 : List Nat → String
  importKeyRaw : List Nat → Except JsError Key
  subtleEncrypt : Key → List Nat → List Nat → Except JsError (List Nat)
  subtleDecrypt : Key → List Nat → List Nat → Except JsError (List Nat)
  textEncode : String → List Nat
  textDecode : List Nat → String
  jsonStringify : JSValue → String
  jsonParse : String → Except JsError JSValue

/-- `new Uint8Array(16)`: the fixed all-zero 16-byte initialization vector
used by both AES directions. -/
def zeroIV : List Nat := List.replicate 16 0

/-- `importAESKey` (src/utils.ts): base64-decode the key, then import it as
a raw AES-CBC key. -/
def importAESKey {Key : Type} (env : AesEnv Key) (aesKey : String) : Except JsError Key := do
  let keyBuffer ← env.decodeBase64 aesKey
  env.importKeyRaw keyBuffer

/-- `aesEncryptText` (src/utils.ts): AES-CBC encrypt the UTF-8 bytes of the
plaintext under the imported key and the zero IV, and base64-encode the
ciphertext. -/
def aesEncryptText {Key : Type} (env : AesEnv Key)
    (plainText aesKey : String) : Except JsError String := do
  let key ← importAESKey env aesKey
  let encrypted ← env.subtleEncrypt key zeroIV (env.textEncode plainText)
  pure (env.encodeBase64 encrypted)

/-- `aesDecryptText` (src/utils.ts): base64-decode the ciphertext, AES-CBC
decrypt it under the imported key and the zero IV, and UTF-8 decode the
plaintext. -/
def aesDecryptText {Key : Type} (env : AesEnv Key)
    (encryptedText aesKey : String) : Except JsError String := do
  let key ← importAESKey env aesKey
  let encryptedBuffer ← env.decodeBase64 encryptedText
  let decrypted ← env.subtleDecrypt key zeroIV encryptedBuffer
  pure (env.textDecode decrypted)

/-- `aesEncrypt` (src/utils.ts): `JSON.stringify` then `aesEncryptText`. -/
def aesEncrypt {Key : Type} (env : AesEnv Key)
    (data : JSValue) (aesKey : String) : Except JsError String :=
  aesEncryptText env (env.jsonStringify data) aesKey

/-- `aesDecrypt` (src/utils.ts): `aesDecryptText` then `JSON.parse`. -/
def aesDecrypt {Key : Type} (env : AesEnv Key)
    (encryptedText aesKey : String) : Except JsError JSValue := do
  let plainText ← aesDecryptText env encryptedText aesKey
  env.jsonParse plainText

/-- `CertificateInfo` (src/types.ts); the two `Date` fields are milliseconds
since epoch. -/
structure CertificateInfo where
  serialNumber : String
  content : String
  notBefore : Int
  notAfter : Int
  issuer : String
  subject : String

/-- `ToInt32`: JavaScript's wrap of a number into a signed 32-bit integer,
as applied by the bitwise operators in `extractSerialNumberFromDER`. -/
def toInt32 (n : Int) : Int :=
  (n + 2 ^ 31) % 2 ^ 32 - 2 ^ 31

/-- `CertUtils.extractSerialNumberFromDER` (src/cert_utils.ts): the rolling
hash `hash = ((hash << 5) - hash + byte) & 0xffffffff` over the first 100
decoded bytes (32-bit signed wrap at each step), rendered as
`Math.abs(hash).toString(16).toUpperCase()`. -/
def extractSerialNumberFromDER (derBuffer : List Nat) : String :=
  let hash := (derBuffer.take 100).foldl
    (fun hash b => toInt32 (toInt32 (hash * 32) - hash + (b : Int))) 0
  String.mk ((Nat.toDigits 16 hash.natAbs).map Char.toUpper)

/-- `CertUtils.parseCertificate` (src/cert_utils.ts): clean the PEM body,
base64-decode it (`dec` is the external `@std/encoding` decoder, which
throws on malformed input), derive the serial number, and fabricate the
remaining descriptor fields — in particular the validity window is
synthesized as one year before to one year after the current instant, not
read from the certificate bytes. -/
def parseCertificate (dec : String → Except JsError (List Nat))
    (certContent : String) (now : Int) : Except JsError CertificateInfo := do
  let certBuffer ← dec (cleanCertContent certContent)
  pure
    { serialNumber := extractSerialNumberFromDER certBuffer
      content := certContent
      notBefore := now - 365 * 24 * 60 * 60 * 1000
      notAfter := now + 365 * 24 * 60 * 60 * 1000
      issuer := "Alipay Root CA"
      subject := "Alipay Certificate" }

/-- `CertUtils.verifyCertificate` (src/cert_utils.ts): parse the
certificate and test `notBefore <= now <= notAfter`; a parse failure is
caught and yields `false`. -/
def verifyCertificate (dec : String → Except JsError (List Nat))
    (certContent : String) (now : Int) : Bool :=
  match parseCertificate dec certContent now with
  | .ok cert => decide (cert.notBefore ≤ now ∧ now ≤ cert.notAfter)
  | .error _ => false

/-- An ASCII letter or digit (the characters camelCase identifiers are made
of; in particular never an underscore). -/
def alnumChar (c : Char) : Bool :=
  c.isLower || c.isUpper || c.isDigit

/-- Specification-level description of the combined effect of the two
decamelize regexes on a camelCase identifier: an underscore is inserted
before every uppercase letter. -/
def sepAll : List Char → List Char
  | [] => []
  | c :: cs => if c.isUpper then '_' :: c :: sepAll cs else c :: sepAll cs

/-- Specification-level description of `decamelize` on a camelCase
identifier: every uppercase letter becomes an underscore followed by its
lowercase form; all other characters are unchanged. -/
def lowerExpand : List Char → List Char
  | [] => []
  | c :: cs =>
    if c.isUpper then '_' :: c.toLower :: lowerExpand cs else c :: lowerExpand cs

/-- A `goodP` prefix for the second regex pass: letters and digits only, no
 two adjacent uppercase letters, and not starting with an uppercase letter. -/
def goodPrefix (p : List Char) : Bool :=
  p.all alnumChar && noAdjacentUpper p &&
    (match p with
     | [] => true
     | c :: _ => !c.isUpper)

/-- A `CryptoEnv` whose base64 decoder rejects its input, as `@std/encoding`
does on malformed base64. -/
def badB64CryptoEnv : CryptoEnv Unit where
  importPublicKey := fun _ _ => .ok ()
  decodeBase64 := fun _ => .error ⟨"Failed to decode base64"⟩
  subtleVerify := fun _ _ _ => .ok true
  textEncode := fun _ => []

/-- A `CryptoEnv` whose primitives all succeed and whose signature check
returns `true`. -/
def okCryptoEnv : CryptoEnv Unit where
  importPublicKey := fun _ _ => .ok ()
  decodeBase64 := fun _ => .ok []
  subtleVerify := fun _ _ _ => .ok true
  textEncode := fun _ => []

/-- A degenerate `AesEnv` in which every primitive succeeds. -/
def trivialAesEnv : AesEnv Unit where
  decodeBase64 := fun _ => .ok []
  encodeBase64 := fun _ => ""
  importKeyRaw := fun _ => .ok ()
  subtleEncrypt := fun _ _ _ => .ok []
  subtleDecrypt := fun _ _ _ => .ok []
  textEncode := fun _ => []
  textDecode := fun _ => ""
  jsonStringify := fun _ => ""
  jsonParse := fun _ => .ok .null

theorem char_toNat_inj {a b : Char} (h : a.toNat = b.toNat) : a = b :=
  Char.ext (UInt32.ext h)

theorem char_ofNat_toNat {m : Nat} (h : m < 55296) : (Char.ofNat m).toNat = m := by
  have hv : Nat.isValidChar m := Or.inl h
  rw [Char.ofNat, dif_pos hv]
  rfl

theorem isUpper_iff {c : Char} : c.isUpper = true ↔ 65 ≤ c.toNat ∧ c.toNat ≤ 90 := by
  simp only [Char.isUpper, Bool.and_eq_true, decide_eq_true_eq, ge_iff_le]
  exact Iff.rfl

theorem isLower_iff {c : Char} : c.isLower = true ↔ 97 ≤ c.toNat ∧ c.toNat ≤ 122 := by
  simp only [Char.isLower, Bool.and_eq_true, decide_eq_true_eq, ge_iff_le]
  exact Iff.rfl

theorem isDigit_iff {c : Char} : c.isDigit = true ↔ 48 ≤ c.toNat ∧ c.toNat ≤ 57 := by
  simp only [Char.isDigit, Bool.and_eq_true, decide_eq_true_eq, ge_iff_le]
  exact Iff.rfl

theorem toLower_of_not_upper {c : Char} (h : ¬ c.isUpper = true) : c.toLower = c := by
  rw [Char.toLower, if_neg]
  intro hc
  exact h (isUpper_iff.mpr ⟨hc.1, hc.2⟩)

theorem toLower_toNat_of_upper {c : Char} (h : c.isUpper = true) :
    c.toLower.toNat = c.toNat + 32 := by
  obtain ⟨h1, h2⟩ := isUpper_iff.mp h
  rw [Char.toLower, if_pos ⟨h1, h2⟩]
  exact char_ofNat_toNat (by omega)

theorem isLower_toLower_of_upper {c : Char} (h : c.isUpper = true) :
    c.toLower.isLower = true := by
  obtain ⟨h1, h2⟩ := isUpper_iff.mp h
  have := toLower_toNat_of_upper h
  exact isLower_iff.mpr (by omega)

theorem toUpper_toLower_of_upper {c : Char} (h : c.isUpper = true) :
    c.toLower.toUpper = c := by
  obtain ⟨h1, h2⟩ := isUpper_iff.mp h
  have hl := toLower_toNat_of_upper h
  rw [Char.toUpper, if_pos (by omega)]
  apply char_toNat_inj
  rw [char_ofNat_toNat (by omega)]
  omega

theorem not_upper_of_lower_or_digit {c : Char} (h : c.isLower = true ∨ c.isDigit = true) :
    ¬ c.isUpper = true := by
  intro hu
  obtain ⟨h1, h2⟩ := isUpper_iff.mp hu
  rcases h with h | h
  · obtain ⟨h3, h4⟩ := isLower_iff.mp h; omega
  · obtain ⟨h3, h4⟩ := isDigit_iff.mp h; omega

theorem alnum_ne_underscore {c : Char} (h : alnumChar c = true) : ¬ (c == '_') = true := by
  intro he
  have : c = '_' := by exact eq_of_beq he
  subst this
  simp [alnumChar, Char.isLower, Char.isUpper, Char.isDigit] at h

theorem lower_or_digit_of_alnum_not_upper {c : Char} (ha : alnumChar c = true)
    (hu : ¬ c.isUpper = true) : (c.isLower || c.isDigit) = true := by
  unfold alnumChar at ha
  rcases Bool.or_eq_true_iff.mp ha with h | h
  · rcases Bool.or_eq_true_iff.mp h with h | h
    · simp [h]
    · exact absurd h hu
  · simp [h]

theorem wordChar_of_alnum {c : Char} (h : alnumChar c = true) : isWordChar c = true := by
  unfold alnumChar at h
  unfold isWordChar
  rcases Bool.or_eq_true_iff.mp h with h | h
  · rcases Bool.or_eq_true_iff.mp h with h | h <;> simp [h]
  · simp [h]

theorem charListLe_total : ∀ as bs : List Char,
    charListLe as bs = true ∨ charListLe bs as = true
  | [], _ => by left; rfl
  | _ :: _, [] => by right; rfl
  | a :: as, b :: bs => by
    by_cases h1 : a.toNat < b.toNat
    · left; simp [charListLe, h1]
    · by_cases h2 : b.toNat < a.toNat
      · right; simp [charListLe, h1, h2]
      · rcases charListLe_total as bs with h | h
        · left; simp [charListLe, h1, h2, h]
        · right; simp [charListLe, h1, h2, h]

theorem charListLe_trans : ∀ as bs cs : List Char,
    charListLe as bs = true → charListLe bs cs = true → charListLe as cs = true
  | [], _, _ => by intro _ _; rfl
  | a :: as, [], _ => by intro h _; simp [charListLe] at h
  | a :: as, b :: bs, [] => by intro _ h; simp [charListLe] at h
  | a :: as, b :: bs, c :: cs => by
    intro h1 h2
    simp only [charListLe] at h1 h2 ⊢
    by_cases hab : a.toNat < b.toNat
    · by_cases hbc : b.toNat < c.toNat
      · rw [if_pos (show a.toNat < c.toNat by omega)]
      · by_cases hcb : c.toNat < b.toNat
        · rw [if_neg hbc, if_pos hcb] at h2
          exact absurd h2 (by simp)
        · rw [if_pos (show a.toNat < c.toNat by omega)]
    · by_cases hba : b.toNat < a.toNat
      · rw [if_neg hab, if_pos hba] at h1
        exact absurd h1 (by simp)
      · rw [if_neg hab, if_neg hba] at h1
        by_cases hbc : b.toNat < c.toNat
        · rw [if_pos (show a.toNat < c.toNat by omega)]
        · by_cases hcb : c.toNat < b.toNat
          · rw [if_neg hbc, if_pos hcb] at h2
            exact absurd h2 (by simp)
          · rw [if_neg hbc, if_neg hcb] at h2
            rw [if_neg (show ¬ a.toNat < c.toNat by omega),
              if_neg (show ¬ c.toNat < a.toNat by omega)]
            exact charListLe_trans as bs cs h1 h2

theorem charListLe_antisymm : ∀ as bs : List Char,
    charListLe as bs = true → charListLe bs as = true → as = bs
  | [], [] => by intro _ _; rfl
  | [], _ :: _ => by intro _ h; simp [charListLe] at h
  | _ :: _, [] => by intro h _; simp [charListLe] at h
  | a :: as, b :: bs => by
    intro h1 h2
    simp only [charListLe] at h1 h2
    by_cases hab : a.toNat < b.toNat
    · rw [if_neg (show ¬ b.toNat < a.toNat by omega), if_pos hab] at h2
      exact absurd h2 (by simp)
    · by_cases hba : b.toNat < a.toNat
      · rw [if_neg hab, if_pos hba] at h1
        exact absurd h1 (by simp)
      · rw [if_neg hab, if_neg hba] at h1
        rw [if_neg hba, if_neg hab] at h2
        have hc : a = b := char_toNat_inj (by omega)
        subst hc
        rw [charListLe_antisymm as bs h1 h2]

theorem keepValue_iff (v : JSValue) :
    keepValue v = true ↔ (v ≠ .null ∧ v ≠ .undefined ∧ v ≠ .str "") := by
  cases v <;> simp [keepValue]

theorem removeEmptyValues_entries : ∀ o : JSObject,
    (removeEmptyValues o).entries = o.entries.filter (fun p => keepValue p.2)
  | .nil => rfl
  | .cons k v tl => by
    by_cases h : keepValue v = true
    · simp [removeEmptyValues, JSObject.entries, h, List.filter,
        removeEmptyValues_entries tl]
    · simp only [Bool.not_eq_true] at h
      simp [removeEmptyValues, JSObject.entries, h, List.filter,
        removeEmptyValues_entries tl]

/-- C2: for every flat mapping, `removeEmptyValues` keeps every entry whose
value is `0` or `false`, drops exactly the entries whose value is the empty
string, `null` or `undefined`, and preserves all other entries with their
original keys and values (in order). -/
theorem removeEmptyValues_spec (o : JSObject) :
    (removeEmptyValues o).entries = o.entries.filter (fun p => keepValue p.2)
    ∧ (∀ k v, (k, v) ∈ (removeEmptyValues o).entries ↔
        ((k, v) ∈ o.entries ∧ v ≠ .null ∧ v ≠ .undefined ∧ v ≠ .str ""))
    ∧ (∀ k, (k, JSValue.num 0) ∈ o.entries → (k, JSValue.num 0) ∈ (removeEmptyValues o).entries)
    ∧ (∀ k b, (k, JSValue.bool b) ∈ o.entries →
        (k, JSValue.bool b) ∈ (removeEmptyValues o).entries) := by
  have hmem : ∀ k v, (k, v) ∈ (removeEmptyValues o).entries ↔
      ((k, v) ∈ o.entries ∧ v ≠ .null ∧ v ≠ .undefined ∧ v ≠ .str "") := by
    intro k v
    rw [removeEmptyValues_entries, List.mem_filter]
    exact and_congr_right (fun _ => keepValue_iff v)
  refine ⟨removeEmptyValues_entries o, hmem, ?_, ?_⟩
  · intro k h
    exact (hmem k (JSValue.num 0)).mpr ⟨h, by simp, by simp, by simp⟩
  · intro k b h
    exact (hmem k (JSValue.bool b)).mpr ⟨h, by simp, by simp, by simp⟩

/-- Witness for C2 at the repository's own test input
`{name: 'test', value: '', count: 0, flag: null, data: undefined, valid: false}`. -/
theorem removeEmptyValues_spec_witness :
    (removeEmptyValues (.cons "name" (.str "test") (.cons "value" (.str "")
        (.cons "count" (.num 0) (.cons "flag" .null (.cons "data" .undefined
          (.cons "valid" (.bool false) .nil))))))).entries
      = [("name", JSValue.str "test"), ("count", JSValue.num 0), ("valid", JSValue.bool false)]
    ∧ ("count", JSValue.num 0) ∈ (removeEmptyValues (.cons "name" (.str "test")
        (.cons "value" (.str "") (.cons "count" (.num 0) (.cons "flag" .null
          (.cons "data" .undefined (.cons "valid" (.bool false) .nil))))))).entries := by
  constructor
  · rw [(removeEmptyValues_spec _).1]
    rfl
  · exact (removeEmptyValues_spec _).2.2.1 "count" (by simp [JSObject.entries])

/-- C4: `verify` never raises — the `try/catch` makes it total into `Bool`:
whenever any step of the attempt (key import, base64 signature decoding, or
the subtle-crypto check) throws, the result is the boolean `false`, and
otherwise it is the boolean the check returned. -/
theorem verify_never_throws {Key : Type} (env : CryptoEnv Key)
    (data signature publicKey signType : String) :
    (∀ e, verifyAttempt env data signature publicKey signType = .error e →
      verify env data signature publicKey signType = false)
    ∧ (∀ b, verifyAttempt env data signature publicKey signType = .ok b →
      verify env data signature publicKey signType = b) := by
  constructor
  · intro e h; unfold verify; rw [h]
  · intro b h; unfold verify; rw [h]

/-- Witness for C4: with a base64 decoder that rejects the malformed
signature, the attempt throws and `verify` returns `false`. -/
theorem verify_never_throws_witness :
    verifyAttempt badB64CryptoEnv "data" "%%%" "publicKey" "RSA2"
        = .error ⟨"Failed to decode base64"⟩
    ∧ verify badB64CryptoEnv "data" "%%%" "publicKey" "RSA2" = false :=
  ⟨rfl, (verify_never_throws badB64CryptoEnv "data" "%%%" "publicKey" "RSA2").1
    ⟨"Failed to decode base64"⟩ rfl⟩

/-- Whatever the content and the current instant, `verifyCertificate` with a
decoder that accepts the body returns `true`: the synthesized window
`[now − 365d, now + 365d]` always contains `now`. -/
theorem verifyCertificate_true_of_decode (dec : String → Except JsError (List Nat))
    (certContent : String) (now : Int) (bytes : List Nat)
    (h : dec (cleanCertContent certContent) = .ok bytes) :
    verifyCertificate dec certContent now = true := by
  unfold verifyCertificate parseCertificate
  rw [h]
  show decide (now - 365 * 24 * 60 * 60 * 1000 ≤ now
    ∧ now ≤ now + 365 * 24 * 60 * 60 * 1000) = true
  exact decide_eq_true ⟨by omega, by omega⟩

/-- C9 counterexample: the claim "`verifyCertificate` returns true iff the
current time lies within the certificate's validity window" is false.  With
a decoder that accepts the body (as `@std/encoding` does on any well-formed
base64 certificate), `verifyCertificate` returns `true` at **every** current
instant — here at 2100-01-01, long past any real certificate's expiry — and
in fact no assignment of a validity window `(notBefore, notAfter)` to
certificate contents whatsoever can validate the claimed biconditional,
because the code's answer never depends on the current time: the instant
`notAfter + 1` lies outside any window while the code still answers
`true`. -/
theorem verifyCertificate_window_claim_refuted :
    verifyCertificate (fun _ => Except.ok [48, 130, 1, 198]) "expired-cert-pem"
        4102444800000 = true
    ∧ ¬ ∃ window : String → Int × Int,
        ∀ certContent now,
          verifyCertificate (fun _ => Except.ok [48, 130, 1, 198]) certContent now = true ↔
            ((window certContent).1 ≤ now ∧ now ≤ (window certContent).2) := by
  have hval : ∀ (c : String) (now : Int),
      verifyCertificate (fun _ => Except.ok [48, 130, 1, 198]) c now = true :=
    fun c now => verifyCertificate_true_of_decode _ c now [48, 130, 1, 198] rfl
  refine ⟨hval _ _, ?_⟩
  rintro ⟨window, hw⟩
  have h1 := (hw "expired-cert-pem" ((window "expired-cert-pem").2 + 1)).mp
    (hval _ _)
  omega

/-- C9 (amended): `verifyCertificate` returns `true` iff the cleaned base64
body of the content decodes successfully; the descriptor built by
`parseCertificate` carries a validity window synthesized as
`[now − 365 days, now + 365 days]`, which always contains the current
instant, so the certificate's real validity dates are never consulted and an
expired certificate still verifies. -/
theorem verifyCertificate_decode_iff (dec : String → Except JsError (List Nat))
    (certContent : String) (now : Int) :
    (verifyCertificate dec certContent now = true ↔
      ∃ bytes, dec (cleanCertContent certContent) = .ok bytes)
    ∧ (∀ cert, parseCertificate dec certContent now = .ok cert →
        cert.notBefore = now - 365 * 24 * 60 * 60 * 1000
        ∧ cert.notAfter = now + 365 * 24 * 60 * 60 * 1000
        ∧ cert.notBefore ≤ now ∧ now ≤ cert.notAfter) := by
  constructor
  · cases h : dec (cleanCertContent certContent) with
    | error e =>
      unfold verifyCertificate parseCertificate
      rw [h]
      simp
    | ok bytes =>
      constructor
      · intro _
        exact ⟨bytes, rfl⟩
      · intro _
        exact verifyCertificate_true_of_decode dec certContent now bytes h
  · intro cert hc
    unfold parseCertificate at hc
    cases h : dec (cleanCertContent certContent) with
    | error e => rw [h] at hc; exact absurd hc (by simp)
    | ok bytes =>
      rw [h] at hc
      cases Except.ok.inj hc
      exact ⟨rfl, rfl,
        by show now - 365 * 24 * 60 * 60 * 1000 ≤ now; omega,
        by show now ≤ now + 365 * 24 * 60 * 60 * 1000; omega⟩

/-- Witness for the amended C9: a decodable body verifies at a concrete
instant, and the parsed descriptor's synthesized window has the stated
endpoints and contains that instant. -/
theorem verifyCertificate_decode_iff_witness :
    verifyCertificate (fun _ => Except.ok [48, 130]) "certContent" 1700000000000 = true
    ∧ ((1700000000000 : Int) - 365 * 24 * 60 * 60 * 1000 ≤ 1700000000000
        ∧ (1700000000000 : Int) ≤ 1700000000000 + 365 * 24 * 60 * 60 * 1000) := by
  have h := verifyCertificate_decode_iff (fun _ => Except.ok [48, 130])
    "certContent" 1700000000000
  have h2 := h.2 _ rfl
  exact ⟨h.1.mpr ⟨[48, 130], rfl⟩, h2.2.2⟩

theorem string_data_append (s t : String) : (s ++ t).data = s.data ++ t.data := rfl

theorem splitNl_noNl : ∀ f : List Char, '\n' ∉ f → splitNl f = [f]
  | [], _ => rfl
  | c :: cs, h => by
    have hc : ¬ c = '\n' := fun hh => h (hh ▸ List.mem_cons_self c cs)
    have h2 : '\n' ∉ cs := fun hh => h (List.mem_cons_of_mem c hh)
    simp only [splitNl]
    rw [if_neg hc, splitNl_noNl cs h2]

theorem splitNl_append (f rest : List Char) (h : '\n' ∉ f) :
    splitNl (f ++ '\n' :: rest) = f :: splitNl rest := by
  induction f with
  | nil => simp [splitNl]
  | cons c cs ih =>
    have hc : ¬ c = '\n' := fun hh => h (hh ▸ List.mem_cons_self c cs)
    have h2 : '\n' ∉ cs := fun hh => h (List.mem_cons_of_mem c hh)
    simp only [List.cons_append, splitNl, List.append_eq]
    rw [if_neg hc, ih h2]

theorem string_mk_data (s : String) : String.mk s.data = s := rfl

theorem splitNlStr_jsJoin : ∀ fields : List String, fields ≠ [] →
    (∀ f ∈ fields, noNl f) → splitNlStr (jsJoin "\n" fields) = fields
  | [], hne, _ => absurd rfl hne
  | [x], _, h => by
    simp only [jsJoin, splitNlStr]
    rw [splitNl_noNl x.data (h x (by simp))]
    simp [string_mk_data]
  | x :: y :: xs, _, h => by
    have hx : noNl x := h x (by simp)
    have hrest : ∀ f ∈ y :: xs, noNl f := fun f hf => h f (List.mem_cons_of_mem x hf)
    have ih := splitNlStr_jsJoin (y :: xs) (by simp) hrest
    simp only [jsJoin] at ih ⊢
    unfold splitNlStr at ih ⊢
    have hdata : (x ++ "\n" ++ jsJoin "\n" (y :: xs)).data
        = x.data ++ '\n' :: (jsJoin "\n" (y :: xs)).data := by
      simp [string_data_append, List.append_assoc]
    rw [hdata, splitNl_append _ _ hx]
    simp only [List.map_cons, string_mk_data]
    rw [show (splitNl (jsJoin "\n" (y :: xs)).data).map String.mk = y :: xs from ih]

theorem digitChar_ne_newline : ∀ m : Nat, Nat.digitChar m ≠ '\n'
  | 0 => by decide
  | 1 => by decide
  | 2 => by decide
  | 3 => by decide
  | 4 => by decide
  | 5 => by decide
  | 6 => by decide
  | 7 => by decide
  | 8 => by decide
  | 9 => by decide
  | 10 => by decide
  | 11 => by decide
  | 12 => by decide
  | 13 => by decide
  | 14 => by decide
  | 15 => by decide
  | n + 16 => by
    unfold Nat.digitChar
    iterate 16 rw [if_neg (by omega)]
    decide

theorem toDigitsCore_ne_newline : ∀ (fuel n : Nat) (ds : List Char),
    (∀ c ∈ ds, c ≠ '\n') → ∀ c ∈ Nat.toDigitsCore 10 fuel n ds, c ≠ '\n'
  | 0, _, _, hds => hds
  | fuel + 1, n, ds, hds => by
    unfold Nat.toDigitsCore
    have hd : ∀ c ∈ Nat.digitChar (n % 10) :: ds, c ≠ '\n' := by
      intro c hc
      rcases List.mem_cons.mp hc with h | h
      · exact h ▸ digitChar_ne_newline (n % 10)
      · exact hds c h
    by_cases hz : n / 10 = 0
    · simpa [hz] using hd
    · rw [if_neg hz]
      exact toDigitsCore_ne_newline fuel (n / 10) _ hd

theorem noNl_toString_nat (n : Nat) : noNl (toString n) := by
  intro hmem
  have : ('\n' : Char) ∈ Nat.toDigits 10 n := hmem
  exact toDigitsCore_ne_newline (n + 1) n [] (by intro c hc; cases hc) '\n' this rfl

/-- C5: the V3 outbound canonical string is exactly the six fields
{uppercased method, path, serialized query string, body, auth token or
empty, decimal millisecond timestamp} joined by `'\n'`; splitting on
newlines recovers the six fields (absent fields are empty strings, so the
field count is always six), and on the example input the canonical string
is the specified constant.  `signatureV3` signs exactly this string. -/
theorem signatureV3_canonical (searchToString : List (String × String) → String)
    (signer : String → String → String → String → Except JsError String)
    (method pathname : String) (params : List (String × String))
    (requestBody : String) (appAuthToken : Option String) (timestamp : Nat)
    (appId privateKey signType keyType : String) :
    (signatureV3 searchToString signer method pathname params requestBody appAuthToken
        timestamp appId privateKey signType keyType
      = signer (stringToSignV3 searchToString method pathname params requestBody
          appAuthToken timestamp) privateKey signType keyType)
    ∧ (noNl (jsToUpperCase method) → noNl pathname → noNl (searchToString params) →
        noNl requestBody → noNl (appAuthToken.getD "") →
        splitNlStr (stringToSignV3 searchToString method pathname params requestBody
            appAuthToken timestamp)
          = [jsToUpperCase method, pathname, searchToString params, requestBody,
              appAuthToken.getD "", toString timestamp]
        ∧ (splitNlStr (stringToSignV3 searchToString method pathname params requestBody
            appAuthToken timestamp)).length = 6)
    ∧ (searchToString params = "" →
        stringToSignV3 searchToString "POST" "/v3/pay" params "\x7b\"a\":1\x7d" none 1700000000000
          = "POST\n/v3/pay\n\n\x7b\"a\":1\x7d\n\n1700000000000") := by
  refine ⟨rfl, ?_, ?_⟩
  · intro h1 h2 h3 h4 h5
    have hsplit : splitNlStr (stringToSignV3 searchToString method pathname params
        requestBody appAuthToken timestamp)
        = [jsToUpperCase method, pathname, searchToString params, requestBody,
            appAuthToken.getD "", toString timestamp] := by
      apply splitNlStr_jsJoin
      · simp
      · intro f hf
        simp only [List.mem_cons, List.not_mem_nil, or_false] at hf
        rcases hf with rfl | rfl | rfl | rfl | rfl | rfl
        · exact h1
        · exact h2
        · exact h3
        · exact h4
        · exact h5
        · exact noNl_toString_nat timestamp
    exact ⟨hsplit, by rw [hsplit]; rfl⟩
  · intro hq
    unfold stringToSignV3
    rw [hq]
    rfl

/-- Witness for C5 at the specified example: method `POST`, path `/v3/pay`,
empty query, body `{"a":1}`, no auth token, timestamp 1700000000000. -/
theorem signatureV3_canonical_witness :
    splitNlStr (stringToSignV3 (fun _ => "") "POST" "/v3/pay" [] "\x7b\"a\":1\x7d" none 1700000000000)
      = ["POST", "/v3/pay", "", "\x7b\"a\":1\x7d", "", "1700000000000"]
    ∧ stringToSignV3 (fun _ => "") "POST" "/v3/pay" [] "\x7b\"a\":1\x7d" none 1700000000000
      = "POST\n/v3/pay\n\n\x7b\"a\":1\x7d\n\n1700000000000" := by
  have h := signatureV3_canonical (fun _ => "") (fun d _ _ _ => .ok d) "POST" "/v3/pay"
    [] "\x7b\"a\":1\x7d" none 1700000000000 "app" "privateKey" "RSA2" "PKCS8"
  exact ⟨(h.2.1 (by decide) (by decide) (by decide) (by decide) (by decide)).1,
    h.2.2 rfl⟩

/-- C6: `verifySignatureV3` verifies the signature over exactly the
three-field newline join `{timestamp}\n{nonce}\n{body}` — three fields, not
the six of the outbound signing string — and a throwing verification step
yields the boolean `false` rather than an error. -/
theorem verifySignatureV3_three_fields {Key : Type} (env : CryptoEnv Key)
    (timestamp nonce requestBody signature publicKey signType : String) :
    (verifySignatureV3 env timestamp nonce requestBody signature publicKey signType
      = verify env (stringToVerifyV3 timestamp nonce requestBody) signature publicKey signType)
    ∧ (stringToVerifyV3 timestamp nonce requestBody
      = timestamp ++ "\n" ++ (nonce ++ "\n" ++ requestBody))
    ∧ (noNl timestamp → noNl nonce → noNl requestBody →
        splitNlStr (stringToVerifyV3 timestamp nonce requestBody)
          = [timestamp, nonce, requestBody])
    ∧ (∀ e, verifyAttempt env (stringToVerifyV3 timestamp nonce requestBody)
          signature publicKey signType = .error e →
        verifySignatureV3 env timestamp nonce requestBody signature publicKey signType
          = false) := by
  refine ⟨rfl, rfl, ?_, ?_⟩
  · intro h1 h2 h3
    apply splitNlStr_jsJoin
    · simp
    · intro f hf
      simp only [List.mem_cons, List.not_mem_nil, or_false] at hf
      rcases hf with rfl | rfl | rfl
      · exact h1
      · exact h2
      · exact h3
  · intro e he
    unfold verifySignatureV3 verify
    rw [he]

/-- Witness for C6: the three-field split on concrete inputs, and `false`
under a throwing base64 decoder. -/
theorem verifySignatureV3_three_fields_witness :
    splitNlStr (stringToVerifyV3 "1700000000000" "nonce1" "\x7b\"ok\":true\x7d")
      = ["1700000000000", "nonce1", "\x7b\"ok\":true\x7d"]
    ∧ verifySignatureV3 badB64CryptoEnv "1700000000000" "nonce1" "\x7b\"ok\":true\x7d"
        "sig" "publicKey" "RSA2" = false := by
  have h := verifySignatureV3_three_fields badB64CryptoEnv "1700000000000" "nonce1"
    "\x7b\"ok\":true\x7d" "sig" "publicKey" "RSA2"
  exact ⟨h.2.2.1 (by decide) (by decide) (by decide),
    h.2.2.2 ⟨"Failed to decode base64"⟩ rfl⟩

/-- C10: when the notification parameters carry no `sign` field (or an empty
one), `checkNotifySign` returns `false` immediately — whatever the
configuration, including one with neither public key nor certificate — and
conversely the missing-key configuration error can only arise when a
nonempty `sign` field is present. -/
theorem checkNotifySign_missing_sign {Key : Type} (env : CryptoEnv Key)
    (cfg : AlipayConfig) (params : List (String × String)) :
    (jsGet params "sign" = "" → checkNotifySign env cfg params = .ok false)
    ∧ (∀ e, checkNotifySign env cfg params = .error e → jsGet params "sign" ≠ "") := by
  constructor
  · intro h
    unfold checkNotifySign
    simp [h]
  · intro e he hs
    unfold checkNotifySign at he
    simp [hs] at he

/-- Witness for C10: no `sign` field and a configuration with neither a raw
public key nor a certificate still yields `.ok false`, not an error. -/
theorem checkNotifySign_missing_sign_witness :
    checkNotifySign okCryptoEnv
      { appId := "app", privateKey := "pk", signType := "RSA2",
        alipayPublicKey := "", alipayPublicCertContent := "" }
      [("out_trade_no", "123"), ("trade_status", "TRADE_SUCCESS")] = .ok false :=
  (checkNotifySign_missing_sign okCryptoEnv
    { appId := "app", privateKey := "pk", signType := "RSA2",
      alipayPublicKey := "", alipayPublicCertContent := "" }
    [("out_trade_no", "123"), ("trade_status", "TRADE_SUCCESS")]).1 rfl

/-- C7: for both callback verifiers, a configured gateway public certificate
takes precedence — the verification key is the one extracted from it, no
matter what raw public key is configured — and when neither a certificate
nor a raw public key is configured the operation raises the configuration
error instead of returning `false` (for `checkNotifySign`, with a `sign`
field present). -/
theorem notify_verification_key_selection {Key : Type} (env : CryptoEnv Key)
    (cfg : AlipayConfig) (params : List (String × String))
    (timestamp nonce requestBody signature : String) :
    (jsGet params "sign" ≠ "" →
      cfg.alipayPublicCertContent ≠ "" →
      extractPublicKeyFromCert cfg.alipayPublicCertContent ≠ "" →
      checkNotifySign env cfg params
        = .ok (verify env
            (buildSignContent (params.filter (fun p => p.1 != "sign" && p.1 != "sign_type")))
            (jsGet params "sign")
            (extractPublicKeyFromCert cfg.alipayPublicCertContent)
            (if jsGet params "sign_type" != "" then jsGet params "sign_type"
              else cfg.signType)))
    ∧ (jsGet params "sign" ≠ "" →
      cfg.alipayPublicCertContent = "" → cfg.alipayPublicKey = "" →
      checkNotifySign env cfg params = .error ⟨"支付宝公钥未配置"⟩)
    ∧ (cfg.alipayPublicCertContent ≠ "" →
      extractPublicKeyFromCert cfg.alipayPublicCertContent ≠ "" →
      checkNotifySignV3 env cfg timestamp nonce requestBody signature
        = .ok (verifySignatureV3 env timestamp nonce requestBody signature
            (extractPublicKeyFromCert cfg.alipayPublicCertContent) cfg.signType))
    ∧ (cfg.alipayPublicCertContent = "" → cfg.alipayPublicKey = "" →
      checkNotifySignV3 env cfg timestamp nonce requestBody signature
        = .error ⟨"支付宝公钥未配置"⟩) := by
  refine ⟨?_, ?_, ?_, ?_⟩
  · intro hs hc he
    unfold checkNotifySign
    simp [hs, hc, he]
  · intro hs hc hk
    unfold checkNotifySign
    simp [hs, hc, hk]
  · intro hc he
    unfold checkNotifySignV3
    simp [hc, he]
  · intro hc hk
    unfold checkNotifySignV3
    simp [hc, hk]

/-- Witness for C7: with both a raw key and a certificate configured, the
extracted certificate key is used; with neither, the configuration error is
thrown. -/
theorem notify_verification_key_selection_witness :
    checkNotifySign okCryptoEnv
      { appId := "app", privateKey := "pk", signType := "RSA2",
        alipayPublicKey := "rawKey", alipayPublicCertContent := "certBody" }
      [("sign", "abc"), ("a", "1")]
      = .ok (verify okCryptoEnv (buildSignContent [("a", "1")]) "abc" "certBody" "RSA2")
    ∧ checkNotifySignV3 okCryptoEnv
      { appId := "app", privateKey := "pk", signType := "RSA2",
        alipayPublicKey := "", alipayPublicCertContent := "" }
      "1700000000000" "nonce1" "\x7b\x7d" "sig" = .error ⟨"支付宝公钥未配置"⟩ := by
  have h1 := (notify_verification_key_selection okCryptoEnv
    { appId := "app", privateKey := "pk", signType := "RSA2",
      alipayPublicKey := "rawKey", alipayPublicCertContent := "certBody" }
    [("sign", "abc"), ("a", "1")] "" "" "" "").1 (by decide) (by decide) (by decide)
  have h2 := (notify_verification_key_selection okCryptoEnv
    { appId := "app", privateKey := "pk", signType := "RSA2",
      alipayPublicKey := "", alipayPublicCertContent := "" }
    [("sign", "abc"), ("a", "1")] "1700000000000" "nonce1" "\x7b\x7d" "sig").2.2.2 rfl rfl
  exact ⟨h1, h2⟩

/-- C8: `aesDecrypt ∘ aesEncrypt` is the identity on JSON-serializable
payloads: given the contracts of the external primitives (base64 decode
inverts encode on the ciphertext, AES-CBC decrypt under the same key and
the fixed all-zero 16-byte IV inverts encrypt, UTF-8 decode inverts encode,
and `JSON.parse` inverts `JSON.stringify` on the payload), encrypting and
then decrypting with the same key returns the payload.  Both directions use
the fixed IV `zeroIV = 16 zero bytes`. -/
theorem aes_roundtrip {Key : Type} (env : AesEnv Key) (payload : JSValue)
    (aesKey : String) (k : Key) (ct : List Nat)
    (hkey : importAESKey env aesKey = .ok k)
    (henc : env.subtleEncrypt k zeroIV (env.textEncode (env.jsonStringify payload)) = .ok ct)
    (hb64 : env.decodeBase64 (env.encodeBase64 ct) = .ok ct)
    (hdec : env.subtleDecrypt k zeroIV ct = .ok (env.textEncode (env.jsonStringify payload)))
    (htext : env.textDecode (env.textEncode (env.jsonStringify payload))
      = env.jsonStringify payload)
    (hjson : env.jsonParse (env.jsonStringify payload) = .ok payload) :
    aesEncrypt env payload aesKey = .ok (env.encodeBase64 ct)
    ∧ aesDecrypt env (env.encodeBase64 ct) aesKey = .ok payload
    ∧ zeroIV = List.replicate 16 0 := by
  have hbind : ∀ {α β : Type} (a : α) (f : α → Except JsError β),
      (Except.ok a >>= f) = f a := fun _ _ => rfl
  have hpure : ∀ {α : Type} (a : α), (pure a : Except JsError α) = Except.ok a :=
    fun _ => rfl
  refine ⟨?_, ?_, rfl⟩
  · unfold aesEncrypt aesEncryptText
    rw [hkey, hbind, henc, hbind, hpure]
  · unfold aesDecrypt aesDecryptText
    rw [hkey, hbind, hb64, hbind, hdec, hbind, hpure, hbind, htext, hjson]

/-- Witness for C8 with degenerate primitives satisfying all contracts. -/
theorem aes_roundtrip_witness :
    aesEncrypt trivialAesEnv .null "" = .ok ""
    ∧ aesDecrypt trivialAesEnv "" "" = .ok .null := by
  have h := aes_roundtrip trivialAesEnv .null "" () [] rfl rfl rfl rfl rfl rfl
  exact ⟨h.1, h.2.1⟩

theorem jsGet_eq_of_nodup : ∀ (params : List (String × String)) (k v : String),
    (params.map Prod.fst).Nodup → (k, v) ∈ params → jsGet params k = v
  | [], _, _, _, hm => absurd hm (List.not_mem_nil _)
  | (k', v') :: tl, k, v, hn, hm => by
    have hn' : k' ∉ tl.map Prod.fst ∧ (tl.map Prod.fst).Nodup := by
      simpa [List.nodup_cons] using hn
    rcases List.mem_cons.mp hm with heq | htl
    · obtain ⟨rfl, rfl⟩ := Prod.mk.injEq .. ▸ heq
      unfold jsGet
      rw [List.find?_cons_of_pos _ (by simp)]
      rfl
    · by_cases hk : k' = k
      · subst hk
        exact absurd (List.mem_map_of_mem Prod.fst htl) hn'.1
      · unfold jsGet
        rw [List.find?_cons_of_neg _ (by simp [hk])]
        exact jsGet_eq_of_nodup tl k v hn'.2 htl

/-- C1: for every parameter mapping (with the distinct keys a JavaScript
object guarantees), `buildSignContent` produces exactly the claimed
canonical string: drop the `sign` key and every falsy-valued key, sort the
remaining entries by key in ascending lexicographic order, and join the
`key=value` pairs with `&`; on the example input
`{b: "2", a: "1", sign: "x", c: ""}` the result is `"a=1&b=2"`. -/
theorem buildSignContent_matches_spec :
    (∀ params : List (String × String), (params.map Prod.fst).Nodup →
      buildSignContent params = signableSpecV2 params)
    ∧ buildSignContent [("b", "2"), ("a", "1"), ("sign", "x"), ("c", "")] = "a=1&b=2" := by
  have hanti : ∀ a b : String, jsStrLe a b → jsStrLe b a → a = b := fun a b h1 h2 =>
    String.ext (charListLe_antisymm a.data b.data h1 h2)
  haveI : IsTotal String jsStrLe := ⟨fun a b => charListLe_total a.data b.data⟩
  haveI : IsTrans String jsStrLe := ⟨fun a b c => charListLe_trans a.data b.data c.data⟩
  haveI : IsAntisymm String jsStrLe := ⟨hanti⟩
  haveI : IsTotal (String × String) (fun p q : String × String => jsStrLe p.1 q.1) :=
    ⟨fun a b => charListLe_total a.1.data b.1.data⟩
  haveI : IsTrans (String × String) (fun p q : String × String => jsStrLe p.1 q.1) :=
    ⟨fun a b c => charListLe_trans a.1.data b.1.data c.1.data⟩
  constructor
  · intro params hn
    unfold buildSignContent signableSpecV2
    dsimp only
    set rPair := fun p q : String × String => jsStrLe p.1 q.1 with hrPair
    set ps := List.insertionSort rPair params with hps
    have hpsPerm : ps.Perm params := List.perm_insertionSort rPair params
    have hpsSorted : List.Pairwise rPair ps := List.sorted_insertionSort rPair params
    have hpsNodup : (ps.map Prod.fst).Nodup :=
      ((hpsPerm.map Prod.fst).nodup_iff).mpr hn
    -- Step A: the sorted key list is the key list of the sorted pairs.
    have hA : List.insertionSort jsStrLe (params.map Prod.fst) = ps.map Prod.fst := by
      apply List.eq_of_perm_of_sorted (r := jsStrLe)
      · exact (List.perm_insertionSort jsStrLe (params.map Prod.fst)).trans
          (hpsPerm.map Prod.fst).symm
      · exact List.sorted_insertionSort jsStrLe (params.map Prod.fst)
      · exact List.pairwise_map.mpr hpsSorted
    -- Pointwise value lookup on members of the sorted pair list.
    have hget : ∀ p ∈ ps, jsGet params p.1 = p.2 := by
      intro p hp
      have hmem : p ∈ params := hpsPerm.mem_iff.mp hp
      exact jsGet_eq_of_nodup params p.1 p.2 hn
        (by simpa using hmem)
    -- Step B/C: filtering keys after sorting is filtering pairs after sorting.
    have hB : (ps.map Prod.fst).filter
          (fun key => jsGet params key != "" && key != "sign")
        = (ps.filter (fun p => p.2 != "" && p.1 != "sign")).map Prod.fst := by
      rw [List.filter_map]
      congr 1
      apply List.filter_congr
      intro p hp
      simp only [Function.comp_apply, hget p hp]
    -- Step E: the spec-side sorted filtered pairs equal the filtered sorted pairs.
    have hq : ps.filter (fun p => p.2 != "" && p.1 != "sign")
        = List.insertionSort rPair
            (params.filter (fun p => p.1 != "sign" && p.2 != "")) := by
      have hcomm : ∀ l : List (String × String),
          l.filter (fun p => p.2 != "" && p.1 != "sign")
            = l.filter (fun p => p.1 != "sign" && p.2 != "") := by
        intro l
        apply List.filter_congr
        intro p _
        exact Bool.and_comm _ _
      haveI : IsAntisymm (String × String)
          (fun p q : String × String => rPair p q ∧ p.1 ≠ q.1) :=
        ⟨fun a b h1 h2 => absurd (hanti a.1 b.1 h1.1 h2.1) h1.2⟩
      apply List.eq_of_perm_of_sorted
        (r := fun p q : String × String => rPair p q ∧ p.1 ≠ q.1)
      · have h1 : (ps.filter (fun p => p.2 != "" && p.1 != "sign")).Perm
            (params.filter (fun p => p.2 != "" && p.1 != "sign")) :=
          hpsPerm.filter _
        rw [hcomm params] at h1
        exact h1.trans (List.perm_insertionSort rPair _).symm
      · have hsorted : List.Pairwise rPair
            (ps.filter (fun p => p.2 != "" && p.1 != "sign")) :=
          hpsSorted.filter _
        have hnodup : ((ps.filter (fun p => p.2 != "" && p.1 != "sign")).map
            Prod.fst).Nodup :=
          ((List.filter_sublist ps).map Prod.fst).nodup hpsNodup
        have hne : List.Pairwise (fun p q : String × String => p.1 ≠ q.1)
            (ps.filter (fun p => p.2 != "" && p.1 != "sign")) :=
          List.pairwise_map.mp hnodup
        exact List.Pairwise.and hsorted hne
      · have hsorted : List.Pairwise rPair
            (List.insertionSort rPair
              (params.filter (fun p => p.1 != "sign" && p.2 != ""))) :=
          List.sorted_insertionSort rPair _
        have hnodup : ((List.insertionSort rPair
            (params.filter (fun p => p.1 != "sign" && p.2 != ""))).map
              Prod.fst).Nodup := by
          apply ((List.perm_insertionSort rPair _).map Prod.fst).symm.nodup
          exact ((List.filter_sublist params).map Prod.fst).nodup hn
        have hne := List.pairwise_map.mp hnodup
        exact List.Pairwise.and hsorted hne
    -- Assemble.
    rw [hA, hB, ← hq, List.map_map]
    congr 1
    apply List.map_congr_left
    intro p hp
    have hp' : p ∈ ps := (List.filter_sublist ps).mem hp
    simp only [Function.comp_apply, hget p hp']
  · rfl

/-- Witness for C1 at the example input, whose keys are distinct. -/
theorem buildSignContent_matches_spec_witness :
    ([("b", "2"), ("a", "1"), ("sign", "x"), ("c", "")].map
      (Prod.fst (α := String) (β := String))).Nodup
    ∧ buildSignContent [("b", "2"), ("a", "1"), ("sign", "x"), ("c", "")]
      = signableSpecV2 [("b", "2"), ("a", "1"), ("sign", "x"), ("c", "")] :=
  ⟨by decide, buildSignContent_matches_spec.1 _ (by decide)⟩

theorem takeWhile_of_all {p : Char → Bool} : ∀ l : List Char,
    (∀ c ∈ l, p c = true) → l.takeWhile p = l
  | [], _ => rfl
  | c :: cs, h => by
    rw [List.takeWhile_cons, if_pos (h c (List.mem_cons_self c cs))]
    rw [takeWhile_of_all cs (fun d hd => h d (List.mem_cons_of_mem c hd))]

theorem dropWhile_of_all {p : Char → Bool} : ∀ l : List Char,
    (∀ c ∈ l, p c = true) → l.dropWhile p = []
  | [], _ => rfl
  | c :: cs, h => by
    rw [List.dropWhile_cons_of_pos (h c (List.mem_cons_self c cs))]
    exact dropWhile_of_all cs (fun d hd => h d (List.mem_cons_of_mem c hd))

theorem replace1Go_nil : ∀ fuel : Nat, replace1Go fuel [] = []
  | 0 => rfl
  | _ + 1 => rfl

theorem replace1_of_all_word : ∀ s : List Char, (∀ c ∈ s, isWordChar c = true) →
    replace1Go s.length s = replace1run s
  | [], _ => rfl
  | c :: cs, h => by
    show replace1Go (cs.length + 1) (c :: cs) = replace1run (c :: cs)
    unfold replace1Go
    rw [if_pos (h c (List.mem_cons_self c cs))]
    rw [takeWhile_of_all cs (fun d hd => h d (List.mem_cons_of_mem c hd))]
    rw [dropWhile_of_all cs (fun d hd => h d (List.mem_cons_of_mem c hd))]
    rw [replace1Go_nil, List.append_nil]

theorem insLastUp_of_no_upper : ∀ cs : List Char,
    (∀ c ∈ cs, c.isUpper = false) → insLastUp cs = none
  | [], _ => rfl
  | c :: cs, h => by
    unfold insLastUp
    rw [insLastUp_of_no_upper cs (fun d hd => h d (List.mem_cons_of_mem c hd))]
    simp [h c (List.mem_cons_self c cs)]

theorem insLastUp_split : ∀ (t₁ : List Char) (U : Char) (t₂ : List Char),
    U.isUpper = true → (∀ c ∈ t₂, c.isUpper = false) →
    insLastUp (t₁ ++ U :: t₂) = some (t₁ ++ '_' :: U :: t₂)
  | [], U, t₂, hU, h2 => by
    simp only [List.nil_append]
    unfold insLastUp
    rw [insLastUp_of_no_upper t₂ h2, hU]
    rfl
  | c :: t₁, U, t₂, hU, h2 => by
    simp only [List.cons_append]
    unfold insLastUp
    rw [insLastUp_split t₁ U t₂ hU h2]

theorem upper_decomp : ∀ l : List Char,
    (∀ c ∈ l, c.isUpper = false) ∨
      ∃ t₁ U t₂, l = t₁ ++ U :: t₂ ∧ U.isUpper = true ∧ ∀ c ∈ t₂, c.isUpper = false
  | [] => Or.inl (fun c hc => absurd hc (List.not_mem_nil c))
  | c :: cs => by
    rcases upper_decomp cs with h | ⟨t₁, U, t₂, rfl, hU, h2⟩
    · by_cases hc : c.isUpper = true
      · exact Or.inr ⟨[], c, cs, rfl, hc, h⟩
      · left
        intro d hd
        rcases List.mem_cons.mp hd with rfl | hd
        · exact Bool.not_eq_true _ ▸ hc
        · exact h d hd
    · exact Or.inr ⟨c :: t₁, U, t₂, rfl, hU, h2⟩

theorem replace2_of_no_upper : ∀ l : List Char,
    (∀ c ∈ l, c.isUpper = false) → replace2 l = l
  | [], _ => rfl
  | [_], _ => rfl
  | a :: b :: rest, h => by
    unfold replace2
    rw [h b (List.mem_cons_of_mem a (List.mem_cons_self b rest))]
    simp only [Bool.and_false, Bool.false_eq_true, if_false]
    rw [replace2_of_no_upper (b :: rest) (fun d hd => h d (List.mem_cons_of_mem a hd))]

theorem replace2_cons_of_no_upper : ∀ (U : Char) (q : List Char),
    (∀ c ∈ q, c.isUpper = false) → replace2 (U :: q) = U :: q
  | _, [], _ => rfl
  | U, q₀ :: q', h => by
    unfold replace2
    rw [h q₀ (List.mem_cons_self q₀ q')]
    simp only [Bool.and_false, Bool.false_eq_true, if_false]
    rw [replace2_of_no_upper (q₀ :: q') h]

theorem sepAll_append : ∀ l₁ l₂ : List Char, sepAll (l₁ ++ l₂) = sepAll l₁ ++ sepAll l₂
  | [], _ => rfl
  | c :: l₁, l₂ => by
    simp only [List.cons_append, sepAll, List.append_eq]
    rw [sepAll_append l₁ l₂]
    by_cases hc : c.isUpper = true <;> simp [hc]

theorem sepAll_of_no_upper : ∀ l : List Char,
    (∀ c ∈ l, c.isUpper = false) → sepAll l = l
  | [], _ => rfl
  | c :: cs, h => by
    unfold sepAll
    rw [h c (List.mem_cons_self c cs),
      sepAll_of_no_upper cs (fun d hd => h d (List.mem_cons_of_mem c hd))]
    rfl

theorem noAdj_tail (a : Char) (l : List Char)
    (h : noAdjacentUpper (a :: l) = true) : noAdjacentUpper l = true := by
  cases l with
  | nil => rfl
  | cons b rest =>
    unfold noAdjacentUpper at h
    rw [Bool.and_eq_true] at h
    exact h.2

theorem noAdj_head_pair {a b : Char} {l : List Char}
    (h : noAdjacentUpper (a :: b :: l) = true) : (a.isUpper && b.isUpper) = false := by
  unfold noAdjacentUpper at h
  rw [Bool.and_eq_true] at h
  have h1 := h.1
  simp only [Bool.not_eq_true', Bool.and_eq_false_iff] at h1
  rcases h1 with h1 | h1 <;> simp [h1]

theorem noAdj_append_left : ∀ l₁ l₂ : List Char,
    noAdjacentUpper (l₁ ++ l₂) = true → noAdjacentUpper l₁ = true
  | [], _, _ => rfl
  | [_], _, _ => rfl
  | a :: b :: rest, l₂, h => by
    have h' : noAdjacentUpper (a :: b :: (rest ++ l₂)) = true := by
      simpa using h
    unfold noAdjacentUpper
    rw [Bool.and_eq_true]
    constructor
    · have := noAdj_head_pair h'
      simp [this]
    · exact noAdj_append_left (b :: rest) l₂ (noAdj_tail a _ h')

theorem goodPrefix_all {p : List Char} (h : goodPrefix p = true) :
    ∀ c ∈ p, alnumChar c = true := by
  unfold goodPrefix at h
  rw [Bool.and_eq_true, Bool.and_eq_true] at h
  exact List.all_eq_true.mp h.1.1

theorem goodPrefix_noAdj {p : List Char} (h : goodPrefix p = true) :
    noAdjacentUpper p = true := by
  unfold goodPrefix at h
  rw [Bool.and_eq_true, Bool.and_eq_true] at h
  exact h.1.2

theorem goodPrefix_head {c : Char} {t : List Char}
    (h : goodPrefix (c :: t) = true) : c.isUpper = false := by
  unfold goodPrefix at h
  rw [Bool.and_eq_true] at h
  have := h.2
  simpa using this

theorem goodPrefix_intro : ∀ p : List Char, (∀ c ∈ p, alnumChar c = true) →
    noAdjacentUpper p = true →
    (p = [] ∨ ∃ c t, p = c :: t ∧ c.isUpper = false) → goodPrefix p = true
  | [], _, _, _ => rfl
  | c :: t, hall, hadj, hhead => by
    unfold goodPrefix
    rw [Bool.and_eq_true, Bool.and_eq_true]
    refine ⟨⟨List.all_eq_true.mpr hall, hadj⟩, ?_⟩
    rcases hhead with h | ⟨c', t', heq, hup⟩
    · exact absurd h (List.cons_ne_nil c t)
    · have h1 : c = c' := (List.cons.injEq c t c' t' ▸ heq).1
      subst h1
      simp [hup]

theorem replace2_sep : ∀ (p : List Char) (U : Char) (q : List Char),
    goodPrefix p = true → (∀ c ∈ q, c.isUpper = false) →
    replace2 (p ++ '_' :: U :: q) = sepAll p ++ '_' :: U :: q
  | [], U, q, _, hq => by
    simp only [List.nil_append, sepAll]
    unfold replace2
    rw [if_neg (by simp)]
    rw [replace2_cons_of_no_upper U q hq]
  | [a], U, q, hp, hq => by
    have haU : a.isUpper = false := goodPrefix_head hp
    simp only [List.cons_append, List.nil_append, sepAll, haU]
    unfold replace2
    rw [if_neg (by simp)]
    have h0 := replace2_sep [] U q rfl hq
    simp only [List.nil_append, sepAll] at h0
    rw [h0]
    simp

  | a :: b :: rest, U, q, hp, hq => by
    have hall := goodPrefix_all hp
    have hnoadj := goodPrefix_noAdj hp
    have haU : a.isUpper = false := goodPrefix_head hp
    by_cases hbU : b.isUpper = true
    · have haLD : (a.isLower || a.isDigit) = true :=
        lower_or_digit_of_alnum_not_upper (hall a (by simp)) (by simp [haU])
      have hgood : goodPrefix rest = true := by
        apply goodPrefix_intro
        · intro c hc
          exact hall c (List.mem_cons_of_mem a (List.mem_cons_of_mem b hc))
        · exact noAdj_tail b rest (noAdj_tail a _ hnoadj)
        · cases rest with
          | nil => exact Or.inl rfl
          | cons r t =>
            refine Or.inr ⟨r, t, rfl, ?_⟩
            have hpair := noAdj_head_pair (noAdj_tail a _ hnoadj)
            rw [hbU] at hpair
            simpa using hpair
      show replace2 (a :: b :: (rest ++ '_' :: U :: q)) = _
      unfold replace2
      rw [if_pos (by rw [haLD, hbU]; rfl)]
      rw [replace2_sep rest U q hgood hq]
      simp only [sepAll, haU, hbU]
      simp
    · have hbU' : b.isUpper = false := by simpa using hbU
      have hgood : goodPrefix (b :: rest) = true := by
        apply goodPrefix_intro
        · intro c hc
          exact hall c (List.mem_cons_of_mem a hc)
        · exact noAdj_tail a _ hnoadj
        · exact Or.inr ⟨b, rest, rfl, hbU'⟩
      show replace2 (a :: b :: (rest ++ '_' :: U :: q)) = _
      unfold replace2
      rw [if_neg (by rw [hbU']; simp)]
      have hrec := replace2_sep (b :: rest) U q hgood hq
      simp only [List.cons_append] at hrec
      rw [hrec]
      simp only [sepAll, haU, hbU']
      simp

theorem replace1run_cons_some {c : Char} {cs cs' : List Char}
    (h : insLastUp cs = some cs') : replace1run (c :: cs) = c :: cs' := by
  change (match insLastUp cs with | some x => c :: x | none => c :: cs) = c :: cs'
  rw [h]

theorem replace1run_cons_none {c : Char} {cs : List Char}
    (h : insLastUp cs = none) : replace1run (c :: cs) = c :: cs := by
  change (match insLastUp cs with | some x => c :: x | none => c :: cs) = c :: cs
  rw [h]

theorem sepAll_cons_pos {c : Char} (cs : List Char) (hc : c.isUpper = true) :
    sepAll (c :: cs) = '_' :: c :: sepAll cs := by
  change (if c.isUpper = true then '_' :: c :: sepAll cs else c :: sepAll cs) = _
  rw [if_pos hc]

theorem sepAll_cons_neg {c : Char} (cs : List Char) (hc : ¬ c.isUpper = true) :
    sepAll (c :: cs) = c :: sepAll cs := by
  change (if c.isUpper = true then '_' :: c :: sepAll cs else c :: sepAll cs) = _
  rw [if_neg hc]

theorem lowerExpand_cons_pos {c : Char} (cs : List Char) (hc : c.isUpper = true) :
    lowerExpand (c :: cs) = '_' :: c.toLower :: lowerExpand cs := by
  change (if c.isUpper = true then '_' :: c.toLower :: lowerExpand cs
    else c :: lowerExpand cs) = _
  rw [if_pos hc]

theorem lowerExpand_cons_neg {c : Char} (cs : List Char) (hc : ¬ c.isUpper = true) :
    lowerExpand (c :: cs) = c :: lowerExpand cs := by
  change (if c.isUpper = true then '_' :: c.toLower :: lowerExpand cs
    else c :: lowerExpand cs) = _
  rw [if_neg hc]

theorem camelShaped_parts {c : Char} {cs : List Char} (h : camelShaped (c :: cs) = true) :
    c.isLower = true ∧ (∀ d ∈ c :: cs, alnumChar d = true) ∧
      noAdjacentUpper (c :: cs) = true := by
  unfold camelShaped at h
  rw [Bool.and_eq_true, Bool.and_eq_true] at h
  exact ⟨h.1.1, fun d hd => List.all_eq_true.mp h.1.2 d hd, h.2⟩

theorem decamelize_sep : ∀ s : List Char, camelShaped s = true →
    replace2 (replace1Go s.length s) = sepAll s
  | [], h => by simp [camelShaped] at h
  | c :: cs, h => by
    obtain ⟨hcl, hall, hadj⟩ := camelShaped_parts h
    have hword : ∀ d ∈ c :: cs, isWordChar d = true :=
      fun d hd => wordChar_of_alnum (hall d hd)
    rw [replace1_of_all_word (c :: cs) hword]
    have hcU : c.isUpper = false := by
      have := not_upper_of_lower_or_digit (Or.inl hcl)
      simpa using this
    rcases upper_decomp cs with hno | ⟨t₁, U, t₂, heq, hU, h2⟩
    · rw [replace1run_cons_none (insLastUp_of_no_upper cs hno)]
      have hnoAll : ∀ d ∈ c :: cs, d.isUpper = false := by
        intro d hd
        rcases List.mem_cons.mp hd with rfl | hd
        · exact hcU
        · exact hno d hd
      rw [replace2_of_no_upper _ hnoAll, sepAll_of_no_upper _ hnoAll]
    · subst heq
      rw [replace1run_cons_some (insLastUp_split t₁ U t₂ hU h2)]
      have hgood : goodPrefix (c :: t₁) = true := by
        apply goodPrefix_intro
        · intro d hd
          apply hall
          rcases List.mem_cons.mp hd with rfl | hd
          · exact List.mem_cons_self d _
          · exact List.mem_cons_of_mem c (List.mem_append_left _ hd)
        · have hv : noAdjacentUpper ((c :: t₁) ++ U :: t₂) = true := by simpa using hadj
          exact noAdj_append_left (c :: t₁) (U :: t₂) hv
        · exact Or.inr ⟨c, t₁, rfl, hcU⟩
      have hrec := replace2_sep (c :: t₁) U t₂ hgood h2
      simp only [List.cons_append] at hrec
      rw [hrec]
      have hsep : sepAll (c :: (t₁ ++ U :: t₂)) = sepAll (c :: t₁) ++ '_' :: U :: t₂ := by
        have h1 := sepAll_append (c :: t₁) (U :: t₂)
        simp only [List.cons_append] at h1
        rw [h1]
        congr 1
        rw [sepAll_cons_pos t₂ hU, sepAll_of_no_upper t₂ h2]
      rw [hsep]

theorem underscore_toLower : '_'.toLower = '_' := rfl

theorem map_toLower_sepAll : ∀ s : List Char, (∀ c ∈ s, alnumChar c = true) →
    (sepAll s).map Char.toLower = lowerExpand s
  | [], _ => rfl
  | c :: cs, h => by
    have ih := map_toLower_sepAll cs (fun d hd => h d (List.mem_cons_of_mem c hd))
    by_cases hc : c.isUpper = true
    · rw [sepAll_cons_pos cs hc, lowerExpand_cons_pos cs hc]
      simp only [List.map_cons, underscore_toLower, ih]
    · rw [sepAll_cons_neg cs hc, lowerExpand_cons_neg cs hc]
      simp only [List.map_cons, toLower_of_not_upper hc, ih]

theorem camelizeChars_cons_ne (c : Char) (l : List Char) (h : (c == '_') = false) :
    camelizeChars (c :: l) = c :: camelizeChars l := by
  cases l with
  | nil => rfl
  | cons b rest =>
    change (if (c == '_') && b.isLower then b.toUpper :: camelizeChars rest
      else c :: camelizeChars (b :: rest)) = _
    rw [h]
    simp

theorem camelizeChars_lowerExpand : ∀ s : List Char, (∀ c ∈ s, alnumChar c = true) →
    camelizeChars (lowerExpand s) = s
  | [], _ => rfl
  | c :: cs, h => by
    have ih := camelizeChars_lowerExpand cs (fun d hd => h d (List.mem_cons_of_mem c hd))
    by_cases hc : c.isUpper = true
    · rw [lowerExpand_cons_pos cs hc]
      unfold camelizeChars
      rw [if_pos (by rw [isLower_toLower_of_upper hc]; rfl)]
      rw [toUpper_toLower_of_upper hc, ih]
    · rw [lowerExpand_cons_neg cs hc]
      have hne : (c == '_') = false := by
        have := alnum_ne_underscore (h c (List.mem_cons_self c cs))
        simpa using this
      rw [camelizeChars_cons_ne c _ hne, ih]

theorem camelizeChars_no_underscore : ∀ l : List Char, (∀ c ∈ l, (c == '_') = false) →
    camelizeChars l = l
  | [], _ => rfl
  | c :: cs, h => by
    rw [camelizeChars_cons_ne c cs (h c (List.mem_cons_self c cs))]
    rw [camelizeChars_no_underscore cs (fun d hd => h d (List.mem_cons_of_mem c hd))]

theorem camel_decamel_chars (l : List Char) (h : camelShaped l = true) :
    camelizeChars ((replace2 (replace1Go l.length l)).map Char.toLower) = l := by
  rw [decamelize_sep l h]
  cases l with
  | nil => simp [camelShaped] at h
  | cons c cs =>
    obtain ⟨_, hall, _⟩ := camelShaped_parts h
    rw [map_toLower_sepAll _ hall]
    exact camelizeChars_lowerExpand _ hall

theorem camelize_decamelize (s : String) (h : camelShaped s.data = true) :
    camelize (decamelize s) = s := by
  show String.mk (camelizeChars ((replace2 (replace1Go s.data.length s.data)).map
    Char.toLower)) = s
  rw [camel_decamel_chars s.data h]

theorem map_toLower_of_no_upper (l : List Char) (h : ∀ c ∈ l, c.isUpper = false) :
    l.map Char.toLower = l := by
  have := List.map_congr_left (l := l) (f := Char.toLower) (g := id)
    (fun a ha => toLower_of_not_upper (by simp [h a ha]))
  rw [this, List.map_id]

theorem decamel_chars_fixed : ∀ l : List Char,
    (∀ c ∈ l, (c.isLower || c.isDigit) = true) →
    (replace2 (replace1Go l.length l)).map Char.toLower = l := by
  intro l hl
  have hupper : ∀ c ∈ l, c.isUpper = false := by
    intro c hc
    have := not_upper_of_lower_or_digit (Bool.or_eq_true_iff.mp (hl c hc))
    simpa using this
  have hword : ∀ c ∈ l, isWordChar c = true := by
    intro c hc
    apply wordChar_of_alnum
    rcases Bool.or_eq_true_iff.mp (hl c hc) with h | h <;> simp [alnumChar, h]
  rw [replace1_of_all_word l hword]
  cases l with
  | nil => rfl
  | cons c cs =>
    rw [replace1run_cons_none (insLastUp_of_no_upper cs
      (fun d hd => hupper d (List.mem_cons_of_mem c hd)))]
    rw [replace2_of_no_upper _ hupper]
    exact map_toLower_of_no_upper _ hupper

theorem decamelize_allLower (s : String) (h : allLowerKey s = true) : decamelize s = s := by
  unfold allLowerKey at h
  rw [Bool.and_eq_true] at h
  show String.mk ((replace2 (replace1Go s.data.length s.data)).map Char.toLower) = s
  rw [decamel_chars_fixed s.data (List.all_eq_true.mp h.2)]

theorem camelize_allLower (s : String) (h : allLowerKey s = true) : camelize s = s := by
  unfold allLowerKey at h
  rw [Bool.and_eq_true] at h
  show String.mk (camelizeChars s.data) = s
  rw [camelizeChars_no_underscore s.data]
  intro c hc
  have hl := List.all_eq_true.mp h.2 c hc
  have : alnumChar c = true := by
    rcases Bool.or_eq_true_iff.mp hl with h' | h' <;> simp [alnumChar, h']
  have := alnum_ne_underscore this
  simpa using this

mutual

theorem roundtrip_val : ∀ v : JSValue, allKeysCamel v = true →
    camelCaseKeys (snakeCaseKeys v) = v
  | .null, _ => rfl
  | .undefined, _ => rfl
  | .bool _, _ => rfl
  | .num _, _ => rfl
  | .str _, _ => rfl
  | .arr l, h => by
    show JSValue.arr (camelCaseArr (snakeCaseArr l)) = JSValue.arr l
    rw [roundtrip_arr l h]
  | .obj fs, h => by
    show JSValue.obj (camelCaseObj (snakeCaseObj fs)) = JSValue.obj fs
    rw [roundtrip_obj fs h]

theorem roundtrip_arr : ∀ l : JSArray, allKeysCamelArr l = true →
    camelCaseArr (snakeCaseArr l) = l
  | .nil, _ => rfl
  | .cons x xs, h => by
    have h2 : (allKeysCamel x && allKeysCamelArr xs) = true := h
    rw [Bool.and_eq_true] at h2
    show JSArray.cons (camelCaseKeys (snakeCaseKeys x)) (camelCaseArr (snakeCaseArr xs))
      = JSArray.cons x xs
    rw [roundtrip_val x h2.1, roundtrip_arr xs h2.2]

theorem roundtrip_obj : ∀ fs : JSObject, allKeysCamelObj fs = true →
    camelCaseObj (snakeCaseObj fs) = fs
  | .nil, _ => rfl
  | .cons k v tl, h => by
    have h2 : (camelShaped k.data && allKeysCamel v && allKeysCamelObj tl) = true := h
    rw [Bool.and_eq_true, Bool.and_eq_true] at h2
    show JSObject.cons (camelize (decamelize k)) (camelCaseKeys (snakeCaseKeys v))
      (camelCaseObj (snakeCaseObj tl)) = JSObject.cons k v tl
    rw [camelize_decamelize k h2.1.1, roundtrip_val v h2.1.2, roundtrip_obj tl h2.2]

end

/-- C3: converting a nested payload's keys to snake_case and back to
camelCase is the identity whenever every object key is a camelCase
identifier (letters and digits, lowercase first letter, no adjacent
uppercase letters); in particular `decamelize "outTradeNo" = "out_trade_no"`
and `camelize "out_trade_no" = "outTradeNo"`, and all-lowercase keys are
fixed points of both conversions. -/
theorem caseConversion_roundtrip (P : JSValue) (s : String)
    (hP : allKeysCamel P = true) (hs : allLowerKey s = true) :
    camelCaseKeys (snakeCaseKeys P) = P
    ∧ decamelize "outTradeNo" = "out_trade_no"
    ∧ camelize "out_trade_no" = "outTradeNo"
    ∧ decamelize s = s ∧ camelize s = s :=
  ⟨roundtrip_val P hP, rfl, rfl, decamelize_allLower s hs, camelize_allLower s hs⟩

/-- Witness for C3 at a nested payload with camelCase keys and the
all-lowercase key `"amount1"`. -/
theorem caseConversion_roundtrip_witness :
    camelCaseKeys (snakeCaseKeys (.obj (.cons "outTradeNo" (.str "x")
        (.cons "nested" (.obj (.cons "userName" (.str "j") .nil))
          (.cons "items" (.arr (.cons (.obj (.cons "goodsId" (.num 7) .nil)) .nil))
            .nil)))))
      = .obj (.cons "outTradeNo" (.str "x")
          (.cons "nested" (.obj (.cons "userName" (.str "j") .nil))
            (.cons "items" (.arr (.cons (.obj (.cons "goodsId" (.num 7) .nil)) .nil))
              .nil)))
    ∧ decamelize "outTradeNo" = "out_trade_no"
    ∧ camelize "out_trade_no" = "outTradeNo"
    ∧ decamelize "amount1" = "amount1" ∧ camelize "amount1" = "amount1" :=
  caseConversion_roundtrip _ "amount1" (by decide) (by decide)
